import Mathlib

/-!
Verification development for the TOTP/HOTP TypeScript library (`mmvsk/totp`).

The definitions below are a shallow embedding of the library's source:

* `Base32` — the RFC 4648 Base32 codec shipped as `for-long` (derived from
  chris-umbel/thirty-two), which the library's base32 index (`export * from
  "./for-long"`) re-exports and which the OTP core consumes.
* `Totp` — the OTP core of `src/totp/index.ts`: counter serialization,
  HOTP generation (dynamic truncation and digit formatting), verification
  with the skew search, the constant-time comparison, and the time helpers.

JavaScript semantics that matter for fidelity:

* `Uint8Array` elements are naturals `< 256` (carried as hypotheses).
* `x & 0xff`, `x >> n`, `x << n`, `x | y` first convert their operands with
  `ToInt32` (wrap into `[-2^31, 2^31)`); on the small non-negative values of
  the codec every operand is a genuine `Nat` and the operators are `Nat`
  bitwise operators, but in `GetCounterState` the counter itself flows
  through `ToInt32`, which we model explicitly on `Int`.
* `TextEncoder().encode` is UTF-8; we model strings as `List Char` and
  encode them with an explicit `utf8Encode`.
-/

/-! ## JavaScript 32-bit numeric semantics -/

/-- JS `ToInt32`: wrap an integer into `[-2^31, 2^31)`. -/
def toInt32 (x : Int) : Int :=
  let m := x.emod 4294967296
  if m < 2147483648 then m else m - 4294967296

/-- JS `x & 0xff` (on an integral `x`): the low byte of the two's-complement
representation, which equals `x` modulo 256. -/
def jsByte (x : Int) : Nat :=
  (x.emod 256).toNat

/-- JS `x >> 8` (sign-propagating right shift): `ToInt32` then floor-divide
by 256. -/
def jsSar8 (x : Int) : Int :=
  Int.fdiv (toInt32 x) 256

/-! ## Base32 codec (`for-long`, derived from chrisumbel/thirty-two)

Translated from the repository's `EncodeToBase32`/`DecodeBase32` pair: the
`while` loop over `shiftIndex`/`i` becomes `encodeGroups`, and the decoding
`for` loop over `shiftIndex`/`plainChar` becomes `decodeLoop`. -/

namespace Base32

/-- RFC 4648: `const CharTable = "ABCDEFGHIJKLMNOPQRSTUVWXYZ234567"`. -/
def CharTable : String := "ABCDEFGHIJKLMNOPQRSTUVWXYZ234567"

/-- `const PaddingChar = "=".charCodeAt(0)` (0x3d). -/
def PaddingChar : Nat := 0x3d

/-- The decoder's `ByteTable` (indexed by `charCode - 0x30`, 80 entries;
0xff marks characters that are not in the Base32 alphabet). -/
def ByteTable : List Nat :=
  [0xff, 0xff, 0x1a, 0x1b, 0x1c, 0x1d, 0x1e, 0x1f,
   0xff, 0xff, 0xff, 0xff, 0xff, 0xff, 0xff, 0xff,
   0xff, 0x00, 0x01, 0x02, 0x03, 0x04, 0x05, 0x06,
   0x07, 0x08, 0x09, 0x0a, 0x0b, 0x0c, 0x0d, 0x0e,
   0x0f, 0x10, 0x11, 0x12, 0x13, 0x14, 0x15, 0x16,
   0x17, 0x18, 0x19, 0xff, 0xff, 0xff, 0xff, 0xff,
   0xff, 0x00, 0x01, 0x02, 0x03, 0x04, 0x05, 0x06,
   0x07, 0x08, 0x09, 0x0a, 0x0b, 0x0c, 0x0d, 0x0e,
   0x0f, 0x10, 0x11, 0x12, 0x13, 0x14, 0x15, 0x16,
   0x17, 0x18, 0x19, 0xff, 0xff, 0xff, 0xff, 0xff]

/-- The encoder's `while (i < inputBytes.length)` loop.  State: `shift` is
`shiftIndex`, the list is `inputBytes[i..]`.  Each iteration emits one 5-bit
group (`charIndex`); when `shiftIndex > 3` the group spans into the next
byte (`inputBytes[i + 1]`, read as 0 past the end), otherwise the group is
taken from the current byte alone and `i` only advances when the byte is
exhausted (`shiftIndex` returned to 0). -/
def encodeGroups (shift : Nat) (bytes : List Nat) : List Nat :=
  match bytes with
  | [] => []
  | b :: rest =>
    if 3 < shift then
      let s := (shift + 5) % 8
      let c := ((b &&& (0xff >>> shift)) <<< s) ||| ((rest.headD 0) >>> (8 - s))
      c :: encodeGroups s rest
    else
      let s := (shift + 5) % 8
      let c := (b >>> (8 - (shift + 5))) &&& 0x1f
      if s = 0 then
        c :: encodeGroups 0 rest
      else
        c :: encodeGroups s (b :: rest)
termination_by (bytes.length, 8 - shift)
decreasing_by
  all_goals simp_wf
  all_goals omega

/-- Character of `CharTable` at a group index (`CharTable.charCodeAt` plus
the final `TextDecoder` step; out-of-range indices never occur on byte
input). -/
def charOf (g : Nat) : Char :=
  CharTable.data.getD g (Char.ofNat 0)

/-- `EncodeToBase32(inputBytes, withPadding)`: emit the 5-bit groups as
alphabet characters; when padding is requested, fill with `=` up to
`outputLength = 8 * (⌊n/5⌋ + (n % 5 == 0 ? 0 : 1))`. -/
def EncodeToBase32 (inputBytes : List Nat) (withPadding : Bool) : List Char :=
  let outputLength := 8 * (inputBytes.length / 5 + (if inputBytes.length % 5 = 0 then 0 else 1))
  let chars := (encodeGroups 0 inputBytes).map charOf
  if withPadding then chars ++ List.replicate (outputLength - chars.length) '='
  else chars

/-- The decoder's per-character table lookup.  JS computes
`ByteTable[encoded[i] - 0x30]`; a byte below 0x30 gives a negative index,
hence `undefined`, which every later bitwise use coerces to 0. -/
def digitOf (c : Nat) : Nat :=
  if c < 0x30 then 0 else ByteTable.getD (c - 0x30) 0

/-- The decoder's `for` loop.  State: `shift` is `shiftIndex`, `acc` is
`plainChar`; the input is the UTF-8 byte sequence of the string.  A padding
byte stops the loop; a byte `c` with `c - 0x30 >= ByteTable.length`
(equivalently `0x80 <= c`) throws; otherwise the 5-bit value (`digitOf c`,
which is 0xff for in-range non-alphabet characters — the table value is
used unchecked, exactly as in the source) is merged into `plainChar`, and a
byte is emitted each time 8 bits have accumulated. -/
def decodeLoop (shift acc : Nat) (bytes : List Nat) : Except String (List Nat) :=
  match bytes with
  | [] => .ok []
  | c :: rest =>
    if c = PaddingChar then .ok []
    else if 0x80 ≤ c then .error "Invalid input: not a valid base32-encoded string"
    else
      let d := digitOf c
      if shift ≤ 3 then
        let s := (shift + 5) % 8
        if s = 0 then do
          let out ← decodeLoop 0 0 rest
          .ok ((acc ||| d) :: out)
        else
          decodeLoop s (acc ||| (0xff &&& (d <<< (8 - s)))) rest
      else
        let s := (shift + 5) % 8
        do
          let out ← decodeLoop s (0xff &&& (d <<< (8 - s))) rest
          .ok ((acc ||| (0xff &&& (d >>> s))) :: out)

/-- UTF-8 encoding of one character (`TextEncoder` semantics). -/
def utf8Encode (c : Char) : List Nat :=
  let n := c.toNat
  if n < 0x80 then [n]
  else if n < 0x800 then
    [0xc0 ||| (n >>> 6), 0x80 ||| (n &&& 0x3f)]
  else if n < 0x10000 then
    [0xe0 ||| (n >>> 12), 0x80 ||| ((n >>> 6) &&& 0x3f), 0x80 ||| (n &&& 0x3f)]
  else
    [0xf0 ||| (n >>> 18), 0x80 ||| ((n >>> 12) &&& 0x3f),
     0x80 ||| ((n >>> 6) &&& 0x3f), 0x80 ||| (n &&& 0x3f)]

/-- `DecodeBase32(base32String)`: run the decoding loop over the string's
UTF-8 bytes (`new TextEncoder().encode(base32String)`). -/
def DecodeBase32 (base32String : List Char) : Except String (List Nat) :=
  decodeLoop 0 0 (base32String.flatMap utf8Encode)

end Base32

/-! ## OTP core (`src/totp/index.ts`) -/

namespace Totp

/-- `export type Algorithm = "SHA-1" | "SHA-256" | "SHA-512"`. -/
inductive Algorithm where
  | sha1
  | sha256
  | sha512
deriving DecidableEq, Repr

/-- `DefaultAlgorithm = "SHA-1"`. -/
def DefaultAlgorithm : Algorithm := .sha1

/-- `DefaultDigits = 6`. -/
def DefaultDigits : Nat := 6

/-- The library's error classes that the modelled operations can throw.
`jsError` is a plain JavaScript `Error` (the Base32 decoder throws those
directly; `GenerateHotpCode` lets them propagate unwrapped);
`invalidSecret` is `InvalidSecretError` (carrying the decoded byte count
from its message); `invalidCodeLength` is `InvalidCodeLengthError` with its
message. -/
inductive TotpErr where
  | jsError (message : String)
  | invalidSecret (decodedBytes : Nat)
  | invalidCodeLength (message : String)
deriving DecidableEq, Repr

/-- `{ digits?, algorithm?, strictDigits?, allowedSkew? }` — the HOTP
generation options plus the verification-only fields (extra fields are
ignored by `GenerateHotpCode`, as in the source). -/
structure HotpOptions where
  digits : Option Nat := none
  algorithm : Option Algorithm := none
  strictDigits : Bool := false
  allowedSkew : Option (Nat × Nat) := none
deriving Repr

/-- `GetCounterState(counter)`: fill an 8-byte buffer from index 7 down to
0 with `counter & 0xff`, shifting `counter >>= 8` each step (JS 32-bit
semantics).  `counterStateRev` produces the bytes in the order they are
written (indices 7, 6, …, 0), hence the final `reverse`. -/
def counterStateRev (n : Nat) (c : Int) : List Nat :=
  match n with
  | 0 => []
  | n + 1 => jsByte c :: counterStateRev n (jsSar8 c)

/-- The 8-byte counter state fed to the HMAC. -/
def GetCounterState (counter : Int) : List Nat :=
  (counterStateRev 8 counter).reverse

/-- JS `String.prototype.slice(-digits)` on a list of characters (for
`digits = 0`, `slice(-0)` is `slice(0)`, the whole string). -/
def jsSliceNeg (digits : Nat) (s : List Char) : List Char :=
  if digits = 0 then s else s.drop (s.length - digits)

/-- JS `String.prototype.padStart(digits, "0")`. -/
def jsPadStartZero (digits : Nat) (s : List Char) : List Char :=
  List.replicate (digits - s.length) '0' ++ s

/-- The pure tail of `GenerateHotpCode` after the secret gate: dynamic
truncation of the HMAC digest followed by digit formatting.  `hashBytes[x]!`
is `getD _ 0`: a TS non-null assertion performs no runtime check, and an
out-of-range read yields `undefined`, which the bitwise operators coerce
to 0. -/
def hotpCodeOf (hashBytes : List Nat) (digits : Nat) : List Char :=
  let offset := (hashBytes.getD (hashBytes.length - 1) 0) &&& 0xf
  let fullCode :=
    (((hashBytes.getD (offset + 0) 0) &&& 0x7f) <<< 24) |||
    (((hashBytes.getD (offset + 1) 0) &&& 0xff) <<< 16) |||
    (((hashBytes.getD (offset + 2) 0) &&& 0xff) <<< 8) |||
    ((hashBytes.getD (offset + 3) 0) &&& 0xff)
  jsPadStartZero digits (jsSliceNeg digits (Nat.repr fullCode).data)

/-- `GenerateHotpCode(counter, secret, options)` for a given HMAC provider
`hmac algorithm key message` (the external `crypto.subtle` collaborator):
decode the secret (decode errors propagate), reject decoded keys shorter
than 10 bytes with `InvalidSecretError`, then hash the 8-byte counter state
and apply dynamic truncation and formatting. -/
def GenerateHotpCode (hmac : Algorithm → List Nat → List Nat → List Nat)
    (counter : Int) (secret : List Char) (options : HotpOptions := {}) :
    Except TotpErr (List Char) := do
  let digits := options.digits.getD DefaultDigits
  let algorithm := options.algorithm.getD DefaultAlgorithm
  let counterState := GetCounterState counter
  let keyBytes ← (Base32.DecodeBase32 secret).mapError TotpErr.jsError
  if keyBytes.length < 10 then
    throw (.invalidSecret keyBytes.length)
  else
    let hashBytes := hmac algorithm keyBytes counterState
    pure (hotpCodeOf hashBytes digits)

/-- `timingSafeEqual(a, b)`: length check, then XOR-accumulate every
character position (`result |= a.charCodeAt(i) ^ b.charCodeAt(i)`) and
succeed iff the accumulator is 0. -/
def timingSafeEqual (a b : List Char) : Bool :=
  if a.length ≠ b.length then false
  else
    ((a.zip b).foldl (fun result p => result ||| (p.1.toNat ^^^ p.2.toNat)) 0) == 0

/-- `InterleaveArrays(a, b)` at the two-array call site: for each index `i`
below the longest length, take `a[i]` then `b[i]`, dropping the
`undefined` reads past each array's end. -/
def InterleaveArrays (a b : List Int) : List Int :=
  (List.range (max a.length b.length)).flatMap
    (fun i => (a.get? i).toList ++ (b.get? i).toList)

/-- The ordered candidate counters of `VerifyHotpCode`: the reference
counter, then (when a skew is supplied) the backward counters
`counter - (i+1)` interleaved with the forward counters `counter + (i+1)`. -/
def counterValuesOf (counter : Int) (allowedSkew : Option (Nat × Nat)) : List Int :=
  match allowedSkew with
  | none => [counter]
  | some sk =>
    counter ::
      InterleaveArrays
        ((List.range sk.1).map (fun (i : Nat) => counter - ((i : Int) + 1)))
        ((List.range sk.2).map (fun (i : Nat) => counter + ((i : Int) + 1)))

/-- The verification `for` loop: generate a code for each candidate counter
(with `{ ...options, digits }`) and return true on the first
`timingSafeEqual` match; errors thrown by generation propagate. -/
def tryCounters (hmac : Algorithm → List Nat → List Nat → List Nat)
    (code : List Char) (secret : List Char) (options : HotpOptions)
    (digits : Nat) (counters : List Int) : Except TotpErr Bool :=
  match counters with
  | [] => .ok false
  | c :: rest => do
    let generatedCode ← GenerateHotpCode hmac c secret { options with digits := some digits }
    if timingSafeEqual generatedCode code then .ok true
    else tryCounters hmac code secret options digits rest

/-- `VerifyHotpCode(code, counter, secret, options)`: reject code lengths
outside `[6, 10]` with `InvalidCodeLengthError`; take the presented code's
length as the effective digit count; under `strictDigits` require an
expected `digits` value (throwing otherwise) and return false on a length
mismatch; then search the skew window. -/
def VerifyHotpCode (hmac : Algorithm → List Nat → List Nat → List Nat)
    (code : List Char) (counter : Int) (secret : List Char)
    (options : HotpOptions := {}) : Except TotpErr Bool :=
  if code.length < 6 ∨ 10 < code.length then
    .error (.invalidCodeLength "Code length must be between 6 and 10 digits")
  else
    let digits := code.length
    let rest :=
      tryCounters hmac code secret options digits
        (counterValuesOf counter options.allowedSkew)
    if options.strictDigits then
      match options.digits with
      | none =>
        .error (.invalidCodeLength "strictDigits option requires specifying expected digits length")
      | some expected =>
        if code.length ≠ expected then .ok false else rest
    else rest

/-- `GenerateRandomSecret(byteLength)` modulo the random source: the
secret bytes delivered by `crypto.getRandomValues` are taken as a
parameter, and the function Base32-encodes them without padding. -/
def GenerateRandomSecret (secretBytes : List Nat) : List Char :=
  Base32.EncodeToBase32 secretBytes false

/-- `Math.floor(GetSystemTime())` where `GetSystemTime()` is
`Date.now() / 1000`: with `Date.now()` delivering `nowMs` non-negative
integer milliseconds, the floor is natural division by 1000. -/
def systemTimeFloor (nowMs : Nat) : Nat :=
  nowMs / 1000

/-- `EstimateTimeLeft(period)` with the wall clock abstracted as `nowMs`:
`period - (Math.floor(GetSystemTime()) % period)`. -/
def EstimateTimeLeft (nowMs : Nat) (period : Nat) : Nat :=
  period - (systemTimeFloor nowMs) % period

end Totp

/-! ## Bitwise-to-arithmetic toolkit -/

namespace JsBits

theorem and1 (x : Nat) : x &&& 1 = x % 2 :=
  Nat.and_one_is_mod x

theorem and3 (x : Nat) : x &&& 3 = x % 4 := by
  have h := Nat.and_pow_two_sub_one_eq_mod x 2
  norm_num at h
  exact h

theorem and7 (x : Nat) : x &&& 7 = x % 8 := by
  have h := Nat.and_pow_two_sub_one_eq_mod x 3
  norm_num at h
  exact h

theorem and15 (x : Nat) : x &&& 15 = x % 16 := by
  have h := Nat.and_pow_two_sub_one_eq_mod x 4
  norm_num at h
  exact h

theorem and31 (x : Nat) : x &&& 31 = x % 32 := by
  have h := Nat.and_pow_two_sub_one_eq_mod x 5
  norm_num at h
  exact h

theorem and63 (x : Nat) : x &&& 63 = x % 64 := by
  have h := Nat.and_pow_two_sub_one_eq_mod x 6
  norm_num at h
  exact h

theorem and127 (x : Nat) : x &&& 127 = x % 128 := by
  have h := Nat.and_pow_two_sub_one_eq_mod x 7
  norm_num at h
  exact h

theorem and255 (x : Nat) : x &&& 255 = x % 256 := by
  have h := Nat.and_pow_two_sub_one_eq_mod x 8
  norm_num at h
  exact h

/-- `|` coincides with `+` when the left operand has no bits below `2^k`
and the right operand lies below `2^k`. -/
theorem or_eq_add (k a b : Nat) (ha : a % 2 ^ k = 0) (hb : b < 2 ^ k) :
    a ||| b = a + b := by
  obtain ⟨c, rfl⟩ := Nat.dvd_of_mod_eq_zero ha
  rw [← Nat.mul_add_lt_is_or hb c]

/-- Evaluate `x ||| y` as a sum when the operands occupy disjoint bit
ranges split at `2^k`. -/
theorem or_eval (k x y z : Nat) (hx : x % 2 ^ k = 0) (hy : y < 2 ^ k) (h : x + y = z) :
    x ||| y = z := by
  rw [or_eq_add k x y hx hy]
  exact h

theorem and255l (x : Nat) : 255 &&& x = x % 256 := by
  rw [Nat.and_comm]
  exact and255 x

theorem or_eq_zero (a b : Nat) : a ||| b = 0 ↔ a = 0 ∧ b = 0 := by
  constructor
  · intro h
    constructor
    · by_contra ha
      obtain ⟨i, hi⟩ := Nat.ne_zero_implies_bit_true ha
      have h2 : (a ||| b).testBit i = true := by simp [Nat.testBit_or, hi]
      rw [h] at h2
      simp [Nat.zero_testBit] at h2
    · by_contra hb
      obtain ⟨i, hi⟩ := Nat.ne_zero_implies_bit_true hb
      have h2 : (a ||| b).testBit i = true := by simp [Nat.testBit_or, hi]
      rw [h] at h2
      simp [Nat.zero_testBit] at h2
  · rintro ⟨rfl, rfl⟩
    rfl

end JsBits

/-! ## Round-trip infrastructure

Specialized, arithmetic-form equations for `Base32.encodeGroups` and
`Base32.decodeLoop`, one per reachable `shiftIndex` value. -/

/-- The single UTF-8 byte of the alphabet character at a group index. -/
def charByte (g : Nat) : Nat :=
  (Base32.charOf g).toNat

theorem charByte_facts :
    ∀ g, g < 32 →
      (Base32.digitOf (charByte g) = g ∧ charByte g ≠ 0x3d ∧ charByte g < 0x80) := by
  decide

theorem utf8_charOf (g : Nat) :
    Base32.utf8Encode (Base32.charOf g) = [charByte g] := by
  rcases Nat.lt_or_ge g 32 with h | h
  · revert h
    revert g
    decide
  · have hlen : Base32.CharTable.data.length ≤ g := by
      have : Base32.CharTable.data.length = 32 := by decide
      omega
    unfold Base32.charOf charByte Base32.charOf
    rw [List.getD_eq_default _ _ hlen]
    decide

theorem flatMap_charOf (gs : List Nat) :
    (gs.map Base32.charOf).flatMap Base32.utf8Encode = gs.map charByte := by
  induction gs with
  | nil => rfl
  | cons g gs ih => simp [utf8_charOf, ih]

theorem flatMap_padding (k : Nat) :
    (List.replicate k '=').flatMap Base32.utf8Encode = List.replicate k 0x3d := by
  induction k with
  | zero => rfl
  | succ k ih => simp [List.replicate_succ, ih]; rfl

/-- The decoding loop stops (returning the bytes emitted so far) at the end
of the input or at a padding byte. -/
theorem decodeLoop_stop (shift acc : Nat) (tail : List Nat)
    (htail : tail = [] ∨ ∃ ts, tail = 0x3d :: ts) :
    Base32.decodeLoop shift acc tail = .ok [] := by
  rcases htail with rfl | ⟨ts, rfl⟩
  · rw [Base32.decodeLoop]
  · rw [Base32.decodeLoop]
    simp [Base32.PaddingChar]

theorem enc0 (b : Nat) (rest : List Nat) :
    Base32.encodeGroups 0 (b :: rest) = (b / 8) % 32 :: Base32.encodeGroups 5 (b :: rest) := by
  rw [Base32.encodeGroups]
  norm_num
  simp only [Nat.shiftRight_eq_div_pow, JsBits.and31]

theorem enc1 (b : Nat) (rest : List Nat) :
    Base32.encodeGroups 1 (b :: rest) = (b / 4) % 32 :: Base32.encodeGroups 6 (b :: rest) := by
  rw [Base32.encodeGroups]
  norm_num
  simp only [Nat.shiftRight_eq_div_pow, JsBits.and31]

theorem enc2 (b : Nat) (rest : List Nat) :
    Base32.encodeGroups 2 (b :: rest) = (b / 2) % 32 :: Base32.encodeGroups 7 (b :: rest) := by
  rw [Base32.encodeGroups]
  norm_num
  simp only [Nat.shiftRight_eq_div_pow, JsBits.and31]

theorem enc3 (b : Nat) (rest : List Nat) :
    Base32.encodeGroups 3 (b :: rest) = b % 32 :: Base32.encodeGroups 0 rest := by
  rw [Base32.encodeGroups]
  norm_num
  simp only [Nat.shiftRight_eq_div_pow, JsBits.and31]

theorem enc4 (b nb : Nat) (rest : List Nat) (hh : rest.headD 0 = nb) (hnb : nb < 256) :
    Base32.encodeGroups 4 (b :: rest) =
      ((b % 16) * 2 + nb / 128) :: Base32.encodeGroups 1 rest := by
  rw [Base32.encodeGroups, hh]
  norm_num
  simp only [Nat.shiftLeft_eq, Nat.shiftRight_eq_div_pow, JsBits.and15]
  norm_num
  simp only [JsBits.and15]
  exact JsBits.or_eval 1 _ _ _ (by omega) (by omega) (by omega)

theorem enc5 (b nb : Nat) (rest : List Nat) (hh : rest.headD 0 = nb) (hnb : nb < 256) :
    Base32.encodeGroups 5 (b :: rest) =
      ((b % 8) * 4 + nb / 64) :: Base32.encodeGroups 2 rest := by
  rw [Base32.encodeGroups, hh]
  norm_num
  simp only [Nat.shiftLeft_eq, Nat.shiftRight_eq_div_pow, JsBits.and7]
  norm_num
  simp only [JsBits.and7]
  exact JsBits.or_eval 2 _ _ _ (by omega) (by omega) (by omega)

theorem enc6 (b nb : Nat) (rest : List Nat) (hh : rest.headD 0 = nb) (hnb : nb < 256) :
    Base32.encodeGroups 6 (b :: rest) =
      ((b % 4) * 8 + nb / 32) :: Base32.encodeGroups 3 rest := by
  rw [Base32.encodeGroups, hh]
  norm_num
  simp only [Nat.shiftLeft_eq, Nat.shiftRight_eq_div_pow, JsBits.and3]
  norm_num
  simp only [JsBits.and3]
  exact JsBits.or_eval 3 _ _ _ (by omega) (by omega) (by omega)

theorem enc7 (b nb : Nat) (rest : List Nat) (hh : rest.headD 0 = nb) (hnb : nb < 256) :
    Base32.encodeGroups 7 (b :: rest) =
      ((b % 2) * 16 + nb / 16) :: Base32.encodeGroups 4 rest := by
  rw [Base32.encodeGroups, hh]
  norm_num
  simp only [Nat.shiftLeft_eq, Nat.shiftRight_eq_div_pow, JsBits.and1]
  norm_num
  exact JsBits.or_eval 4 _ _ _ (by omega) (by omega) (by omega)

theorem dec0 (acc g : Nat) (rest : List Nat) (hg : g < 32) (ha : acc % 256 = 0) :
    Base32.decodeLoop 0 acc (charByte g :: rest) =
      Base32.decodeLoop 5 (acc + g * 8) rest := by
  obtain ⟨hd, hne, hlt⟩ := charByte_facts g hg
  have hlt' : ¬ (0x80 ≤ charByte g) := by omega
  rw [Base32.decodeLoop]
  simp only [Base32.PaddingChar, if_neg hne, if_neg hlt', hd]
  norm_num
  have h1 : 0xff &&& (g <<< 3) = g * 8 := by
    rw [JsBits.and255l, Nat.shiftLeft_eq]
    norm_num
    omega
  have h2 : acc ||| (g * 8) = acc + g * 8 :=
    JsBits.or_eval 8 _ _ _ (by omega) (by omega) rfl
  rw [h1, h2]

theorem dec1 (acc g : Nat) (rest : List Nat) (hg : g < 32) (ha : acc % 128 = 0) :
    Base32.decodeLoop 1 acc (charByte g :: rest) =
      Base32.decodeLoop 6 (acc + g * 4) rest := by
  obtain ⟨hd, hne, hlt⟩ := charByte_facts g hg
  have hlt' : ¬ (0x80 ≤ charByte g) := by omega
  rw [Base32.decodeLoop]
  simp only [Base32.PaddingChar, if_neg hne, if_neg hlt', hd]
  norm_num
  have h1 : 0xff &&& (g <<< 2) = g * 4 := by
    rw [JsBits.and255l, Nat.shiftLeft_eq]
    norm_num
    omega
  have h2 : acc ||| (g * 4) = acc + g * 4 :=
    JsBits.or_eval 7 _ _ _ (by omega) (by omega) rfl
  rw [h1, h2]

theorem dec2 (acc g : Nat) (rest : List Nat) (hg : g < 32) (ha : acc % 64 = 0) :
    Base32.decodeLoop 2 acc (charByte g :: rest) =
      Base32.decodeLoop 7 (acc + g * 2) rest := by
  obtain ⟨hd, hne, hlt⟩ := charByte_facts g hg
  have hlt' : ¬ (0x80 ≤ charByte g) := by omega
  rw [Base32.decodeLoop]
  simp only [Base32.PaddingChar, if_neg hne, if_neg hlt', hd]
  norm_num
  have h1 : 0xff &&& (g <<< 1) = g * 2 := by
    rw [JsBits.and255l, Nat.shiftLeft_eq]
    norm_num
    omega
  have h2 : acc ||| (g * 2) = acc + g * 2 :=
    JsBits.or_eval 6 _ _ _ (by omega) (by omega) rfl
  rw [h1, h2]

theorem dec3 (acc g : Nat) (rest : List Nat) (hg : g < 32) (ha : acc % 32 = 0) :
    Base32.decodeLoop 3 acc (charByte g :: rest) =
      Except.map (fun out => (acc + g) :: out) (Base32.decodeLoop 0 0 rest) := by
  obtain ⟨hd, hne, hlt⟩ := charByte_facts g hg
  have hlt' : ¬ (0x80 ≤ charByte g) := by omega
  rw [Base32.decodeLoop]
  simp only [Base32.PaddingChar, if_neg hne, if_neg hlt', hd]
  norm_num
  have h2 : acc ||| g = acc + g :=
    JsBits.or_eval 5 _ _ _ (by omega) (by omega) rfl
  rw [h2]
  cases Base32.decodeLoop 0 0 rest <;> rfl

theorem dec4 (acc g : Nat) (rest : List Nat) (hg : g < 32) (ha : acc % 16 = 0) :
    Base32.decodeLoop 4 acc (charByte g :: rest) =
      Except.map (fun out => (acc + g / 2) :: out)
        (Base32.decodeLoop 1 ((g % 2) * 128) rest) := by
  obtain ⟨hd, hne, hlt⟩ := charByte_facts g hg
  have hlt' : ¬ (0x80 ≤ charByte g) := by omega
  rw [Base32.decodeLoop]
  simp only [Base32.PaddingChar, if_neg hne, if_neg hlt', hd]
  norm_num
  have h1 : 0xff &&& (g <<< 7) = (g % 2) * 128 := by
    rw [JsBits.and255l, Nat.shiftLeft_eq]
    norm_num
    omega
  have h2 : acc ||| (0xff &&& (g >>> 1)) = acc + g / 2 := by
    rw [JsBits.and255l, Nat.shiftRight_eq_div_pow]
    norm_num
    exact JsBits.or_eval 4 _ _ _ (by omega) (by omega) (by omega)
  rw [h1, h2]
  cases Base32.decodeLoop 1 ((g % 2) * 128) rest <;> rfl

theorem dec5 (acc g : Nat) (rest : List Nat) (hg : g < 32) (ha : acc % 8 = 0) :
    Base32.decodeLoop 5 acc (charByte g :: rest) =
      Except.map (fun out => (acc + g / 4) :: out)
        (Base32.decodeLoop 2 ((g % 4) * 64) rest) := by
  obtain ⟨hd, hne, hlt⟩ := charByte_facts g hg
  have hlt' : ¬ (0x80 ≤ charByte g) := by omega
  rw [Base32.decodeLoop]
  simp only [Base32.PaddingChar, if_neg hne, if_neg hlt', hd]
  norm_num
  have h1 : 0xff &&& (g <<< 6) = (g % 4) * 64 := by
    rw [JsBits.and255l, Nat.shiftLeft_eq]
    norm_num
    omega
  have h2 : acc ||| (0xff &&& (g >>> 2)) = acc + g / 4 := by
    rw [JsBits.and255l, Nat.shiftRight_eq_div_pow]
    norm_num
    exact JsBits.or_eval 3 _ _ _ (by omega) (by omega) (by omega)
  rw [h1, h2]
  cases Base32.decodeLoop 2 ((g % 4) * 64) rest <;> rfl

theorem dec6 (acc g : Nat) (rest : List Nat) (hg : g < 32) (ha : acc % 4 = 0) :
    Base32.decodeLoop 6 acc (charByte g :: rest) =
      Except.map (fun out => (acc + g / 8) :: out)
        (Base32.decodeLoop 3 ((g % 8) * 32) rest) := by
  obtain ⟨hd, hne, hlt⟩ := charByte_facts g hg
  have hlt' : ¬ (0x80 ≤ charByte g) := by omega
  rw [Base32.decodeLoop]
  simp only [Base32.PaddingChar, if_neg hne, if_neg hlt', hd]
  norm_num
  have h1 : 0xff &&& (g <<< 5) = (g % 8) * 32 := by
    rw [JsBits.and255l, Nat.shiftLeft_eq]
    norm_num
    omega
  have h2 : acc ||| (0xff &&& (g >>> 3)) = acc + g / 8 := by
    rw [JsBits.and255l, Nat.shiftRight_eq_div_pow]
    norm_num
    exact JsBits.or_eval 2 _ _ _ (by omega) (by omega) (by omega)
  rw [h1, h2]
  cases Base32.decodeLoop 3 ((g % 8) * 32) rest <;> rfl

theorem dec7 (acc g : Nat) (rest : List Nat) (hg : g < 32) (ha : acc % 2 = 0) :
    Base32.decodeLoop 7 acc (charByte g :: rest) =
      Except.map (fun out => (acc + g / 16) :: out)
        (Base32.decodeLoop 4 ((g % 16) * 16) rest) := by
  obtain ⟨hd, hne, hlt⟩ := charByte_facts g hg
  have hlt' : ¬ (0x80 ≤ charByte g) := by omega
  rw [Base32.decodeLoop]
  simp only [Base32.PaddingChar, if_neg hne, if_neg hlt', hd]
  norm_num
  have h1 : 0xff &&& (g <<< 4) = (g % 16) * 16 := by
    rw [JsBits.and255l, Nat.shiftLeft_eq]
    norm_num
    omega
  have h2 : acc ||| (0xff &&& (g >>> 4)) = acc + g / 16 := by
    rw [JsBits.and255l, Nat.shiftRight_eq_div_pow]
    norm_num
    exact JsBits.or_eval 1 _ _ _ (by omega) (by omega) (by omega)
  rw [h1, h2]
  cases Base32.decodeLoop 4 ((g % 16) * 16) rest <;> rfl

theorem encodeGroups_nil (s : Nat) : Base32.encodeGroups s [] = [] := by
  rw [Base32.encodeGroups]

/-- Lock-step invariant between the encoder and the decoder: decoding the
encoder's output starting from matching `shiftIndex` states (the decoder's
`plainChar` holding exactly the bits of the current byte that the encoder
has already consumed) recovers the input bytes; trailing input (`tail`)
that is empty or starts with a padding byte is ignored. -/
theorem roundtrip_aux (tail : List Nat) (htail : tail = [] ∨ ∃ ts, tail = 0x3d :: ts) :
    ∀ (l : List Nat), (∀ x ∈ l, x < 256) → ∀ (b : Nat), b < 256 →
      ∀ (shift : Nat), shift < 8 →
      ∀ (acc : Nat), acc = b / 2 ^ (8 - shift) * 2 ^ (8 - shift) →
      Base32.decodeLoop shift acc ((Base32.encodeGroups shift (b :: l)).map charByte ++ tail) =
        .ok (b :: l) := by
  intro l
  induction l with
  | nil =>
    intro _ b hb shift h8 acc hacc
    interval_cases shift
    · have hg1 : (b / 8) % 32 < 32 := by omega
      have hg2 : (b % 8) * 4 + 0 / 64 < 32 := by omega
      rw [enc0, enc5 b 0 [] rfl (by omega)]
      simp only [encodeGroups_nil, List.map_cons, List.map_nil, List.cons_append,
        List.nil_append]
      rw [dec0 acc _ _ hg1 (by omega)]
      rw [dec5 (acc + (b / 8) % 32 * 8) _ _ hg2 (by omega)]
      rw [decodeLoop_stop _ _ _ htail]
      rw [show acc + (b / 8) % 32 * 8 + ((b % 8) * 4 + 0 / 64) / 4 = b from by omega]
      rfl
    · have hg1 : (b / 4) % 32 < 32 := by omega
      have hg2 : (b % 4) * 8 + 0 / 32 < 32 := by omega
      rw [enc1, enc6 b 0 [] rfl (by omega)]
      simp only [encodeGroups_nil, List.map_cons, List.map_nil, List.cons_append,
        List.nil_append]
      rw [dec1 acc _ _ hg1 (by omega)]
      rw [dec6 (acc + (b / 4) % 32 * 4) _ _ hg2 (by omega)]
      rw [decodeLoop_stop _ _ _ htail]
      rw [show acc + (b / 4) % 32 * 4 + ((b % 4) * 8 + 0 / 32) / 8 = b from by omega]
      rfl
    · have hg1 : (b / 2) % 32 < 32 := by omega
      have hg2 : (b % 2) * 16 + 0 / 16 < 32 := by omega
      rw [enc2, enc7 b 0 [] rfl (by omega)]
      simp only [encodeGroups_nil, List.map_cons, List.map_nil, List.cons_append,
        List.nil_append]
      rw [dec2 acc _ _ hg1 (by omega)]
      rw [dec7 (acc + (b / 2) % 32 * 2) _ _ hg2 (by omega)]
      rw [decodeLoop_stop _ _ _ htail]
      rw [show acc + (b / 2) % 32 * 2 + ((b % 2) * 16 + 0 / 16) / 16 = b from by omega]
      rfl
    · have hg : b % 32 < 32 := by omega
      rw [enc3]
      simp only [encodeGroups_nil, List.map_cons, List.map_nil, List.cons_append,
        List.nil_append]
      rw [dec3 acc _ _ hg (by omega)]
      rw [decodeLoop_stop _ _ _ htail]
      rw [show acc + b % 32 = b from by omega]
      rfl
    · have hg : (b % 16) * 2 + 0 / 128 < 32 := by omega
      rw [enc4 b 0 [] rfl (by omega)]
      simp only [encodeGroups_nil, List.map_cons, List.map_nil, List.cons_append,
        List.nil_append]
      rw [dec4 acc _ _ hg (by omega)]
      rw [decodeLoop_stop _ _ _ htail]
      rw [show acc + ((b % 16) * 2 + 0 / 128) / 2 = b from by omega]
      rfl
    · have hg : (b % 8) * 4 + 0 / 64 < 32 := by omega
      rw [enc5 b 0 [] rfl (by omega)]
      simp only [encodeGroups_nil, List.map_cons, List.map_nil, List.cons_append,
        List.nil_append]
      rw [dec5 acc _ _ hg (by omega)]
      rw [decodeLoop_stop _ _ _ htail]
      rw [show acc + ((b % 8) * 4 + 0 / 64) / 4 = b from by omega]
      rfl
    · have hg : (b % 4) * 8 + 0 / 32 < 32 := by omega
      rw [enc6 b 0 [] rfl (by omega)]
      simp only [encodeGroups_nil, List.map_cons, List.map_nil, List.cons_append,
        List.nil_append]
      rw [dec6 acc _ _ hg (by omega)]
      rw [decodeLoop_stop _ _ _ htail]
      rw [show acc + ((b % 4) * 8 + 0 / 32) / 8 = b from by omega]
      rfl
    · have hg : (b % 2) * 16 + 0 / 16 < 32 := by omega
      rw [enc7 b 0 [] rfl (by omega)]
      simp only [encodeGroups_nil, List.map_cons, List.map_nil, List.cons_append,
        List.nil_append]
      rw [dec7 acc _ _ hg (by omega)]
      rw [decodeLoop_stop _ _ _ htail]
      rw [show acc + ((b % 2) * 16 + 0 / 16) / 16 = b from by omega]
      rfl
  | cons nb l' ih =>
    intro hl b hb shift h8 acc hacc
    have hnb : nb < 256 := hl nb (by simp)
    have hl' : ∀ x ∈ l', x < 256 := fun x hx => hl x (by simp [hx])
    interval_cases shift
    · have hg1 : (b / 8) % 32 < 32 := by omega
      have hg2 : (b % 8) * 4 + nb / 64 < 32 := by omega
      rw [enc0, enc5 b nb (nb :: l') rfl hnb]
      simp only [List.map_cons, List.cons_append]
      rw [dec0 acc _ _ hg1 (by omega)]
      rw [dec5 (acc + (b / 8) % 32 * 8) _ _ hg2 (by omega)]
      have hrec := ih hl' nb hnb 2 (by omega) (nb / 2 ^ (8 - 2) * 2 ^ (8 - 2)) rfl
      rw [show ((b % 8) * 4 + nb / 64) % 4 * 64 = nb / 2 ^ (8 - 2) * 2 ^ (8 - 2) from by omega]
      rw [hrec]
      rw [show acc + (b / 8) % 32 * 8 + ((b % 8) * 4 + nb / 64) / 4 = b from by omega]
      rfl
    · have hg1 : (b / 4) % 32 < 32 := by omega
      have hg2 : (b % 4) * 8 + nb / 32 < 32 := by omega
      rw [enc1, enc6 b nb (nb :: l') rfl hnb]
      simp only [List.map_cons, List.cons_append]
      rw [dec1 acc _ _ hg1 (by omega)]
      rw [dec6 (acc + (b / 4) % 32 * 4) _ _ hg2 (by omega)]
      have hrec := ih hl' nb hnb 3 (by omega) (nb / 2 ^ (8 - 3) * 2 ^ (8 - 3)) rfl
      rw [show ((b % 4) * 8 + nb / 32) % 8 * 32 = nb / 2 ^ (8 - 3) * 2 ^ (8 - 3) from by omega]
      rw [hrec]
      rw [show acc + (b / 4) % 32 * 4 + ((b % 4) * 8 + nb / 32) / 8 = b from by omega]
      rfl
    · have hg1 : (b / 2) % 32 < 32 := by omega
      have hg2 : (b % 2) * 16 + nb / 16 < 32 := by omega
      rw [enc2, enc7 b nb (nb :: l') rfl hnb]
      simp only [List.map_cons, List.cons_append]
      rw [dec2 acc _ _ hg1 (by omega)]
      rw [dec7 (acc + (b / 2) % 32 * 2) _ _ hg2 (by omega)]
      have hrec := ih hl' nb hnb 4 (by omega) (nb / 2 ^ (8 - 4) * 2 ^ (8 - 4)) rfl
      rw [show ((b % 2) * 16 + nb / 16) % 16 * 16 = nb / 2 ^ (8 - 4) * 2 ^ (8 - 4) from by omega]
      rw [hrec]
      rw [show acc + (b / 2) % 32 * 2 + ((b % 2) * 16 + nb / 16) / 16 = b from by omega]
      rfl
    · have hg : b % 32 < 32 := by omega
      rw [enc3]
      simp only [List.map_cons, List.cons_append]
      rw [dec3 acc _ _ hg (by omega)]
      have hrec := ih hl' nb hnb 0 (by omega) (nb / 2 ^ (8 - 0) * 2 ^ (8 - 0)) rfl
      rw [show nb / 2 ^ (8 - 0) * 2 ^ (8 - 0) = 0 from by omega] at hrec
      rw [hrec]
      rw [show acc + b % 32 = b from by omega]
      rfl
    · have hg : (b % 16) * 2 + nb / 128 < 32 := by omega
      rw [enc4 b nb (nb :: l') rfl hnb]
      simp only [List.map_cons, List.cons_append]
      rw [dec4 acc _ _ hg (by omega)]
      have hrec := ih hl' nb hnb 1 (by omega) (nb / 2 ^ (8 - 1) * 2 ^ (8 - 1)) rfl
      rw [show ((b % 16) * 2 + nb / 128) % 2 * 128 = nb / 2 ^ (8 - 1) * 2 ^ (8 - 1) from by omega]
      rw [hrec]
      rw [show acc + ((b % 16) * 2 + nb / 128) / 2 = b from by omega]
      rfl
    · have hg : (b % 8) * 4 + nb / 64 < 32 := by omega
      rw [enc5 b nb (nb :: l') rfl hnb]
      simp only [List.map_cons, List.cons_append]
      rw [dec5 acc _ _ hg (by omega)]
      have hrec := ih hl' nb hnb 2 (by omega) (nb / 2 ^ (8 - 2) * 2 ^ (8 - 2)) rfl
      rw [show ((b % 8) * 4 + nb / 64) % 4 * 64 = nb / 2 ^ (8 - 2) * 2 ^ (8 - 2) from by omega]
      rw [hrec]
      rw [show acc + ((b % 8) * 4 + nb / 64) / 4 = b from by omega]
      rfl
    · have hg : (b % 4) * 8 + nb / 32 < 32 := by omega
      rw [enc6 b nb (nb :: l') rfl hnb]
      simp only [List.map_cons, List.cons_append]
      rw [dec6 acc _ _ hg (by omega)]
      have hrec := ih hl' nb hnb 3 (by omega) (nb / 2 ^ (8 - 3) * 2 ^ (8 - 3)) rfl
      rw [show ((b % 4) * 8 + nb / 32) % 8 * 32 = nb / 2 ^ (8 - 3) * 2 ^ (8 - 3) from by omega]
      rw [hrec]
      rw [show acc + ((b % 4) * 8 + nb / 32) / 8 = b from by omega]
      rfl
    · have hg : (b % 2) * 16 + nb / 16 < 32 := by omega
      rw [enc7 b nb (nb :: l') rfl hnb]
      simp only [List.map_cons, List.cons_append]
      rw [dec7 acc _ _ hg (by omega)]
      have hrec := ih hl' nb hnb 4 (by omega) (nb / 2 ^ (8 - 4) * 2 ^ (8 - 4)) rfl
      rw [show ((b % 2) * 16 + nb / 16) % 16 * 16 = nb / 2 ^ (8 - 4) * 2 ^ (8 - 4) from by omega]
      rw [hrec]
      rw [show acc + ((b % 2) * 16 + nb / 16) / 16 = b from by omega]
      rfl

theorem replicate_pad_shape (k : Nat) :
    List.replicate k 0x3d = ([] : List Nat) ∨
      ∃ ts, List.replicate k 0x3d = 0x3d :: ts := by
  cases k with
  | zero => exact Or.inl rfl
  | succ k => exact Or.inr ⟨List.replicate k 0x3d, by simp [List.replicate_succ]⟩

/-- Decoding an encoded byte sequence (with or without padding) recovers
the bytes. -/
theorem decode_encode (bytes : List Nat) (pad : Bool) (hb : ∀ x ∈ bytes, x < 256) :
    Base32.DecodeBase32 (Base32.EncodeToBase32 bytes pad) = .ok bytes := by
  rcases bytes with _ | ⟨b, l⟩
  · cases pad <;>
      simp [Base32.EncodeToBase32, Base32.DecodeBase32, encodeGroups_nil, Base32.decodeLoop]
  · have hbb : b < 256 := hb b (by simp)
    have hl : ∀ x ∈ l, x < 256 := fun x hx => hb x (by simp [hx])
    cases pad with
    | false =>
      have haux := roundtrip_aux [] (Or.inl rfl) l hl b hbb 0 (by omega) 0 (by omega)
      rw [List.append_nil] at haux
      simp only [Base32.EncodeToBase32, Base32.DecodeBase32, Bool.false_eq_true, if_false]
      rw [flatMap_charOf]
      exact haux
    | true =>
      simp only [Base32.EncodeToBase32, Base32.DecodeBase32, if_true]
      rw [List.flatMap_append, flatMap_charOf, flatMap_padding]
      exact roundtrip_aux _ (replicate_pad_shape _) l hl b hbb 0 (by omega) 0 (by omega)

/-- The encoder emits `⌈(8·n − shiftIndex)/5⌉` groups. -/
theorem encodeGroups_length (shift : Nat) (bytes : List Nat) (h8 : shift < 8) :
    (Base32.encodeGroups shift bytes).length = (8 * bytes.length + 4 - shift) / 5 := by
  revert h8
  induction shift, bytes using Base32.encodeGroups.induct with
  | case1 shift =>
    intro h8
    rw [encodeGroups_nil]
    simp
    omega
  | case2 shift b rest h s ih =>
    intro h8
    have hs : s = (shift + 5) % 8 := rfl
    have ihx := ih (by omega)
    rw [hs] at ihx
    rw [Base32.encodeGroups]
    simp only [if_pos h, List.length_cons]
    rw [ihx]
    omega
  | case3 shift b rest h1 s hs0 ih =>
    intro h8
    have hs : s = (shift + 5) % 8 := rfl
    have h2 : (shift + 5) % 8 = 0 := by rw [← hs]; exact hs0
    have ihx := ih (by omega)
    rw [Base32.encodeGroups]
    simp only [if_neg h1, h2, if_true, List.length_cons]
    rw [ihx]
    omega
  | case4 shift b rest h1 s hs0 ih =>
    intro h8
    have hs : s = (shift + 5) % 8 := rfl
    have h2 : ¬ ((shift + 5) % 8 = 0) := by rw [← hs]; exact hs0
    have ihx := ih (by omega)
    rw [hs] at ihx
    simp only [List.length_cons] at ihx
    rw [Base32.encodeGroups]
    simp only [if_neg h1, if_neg h2, List.length_cons]
    rw [ihx]
    omega

theorem headD_lt_of_bounded (rest : List Nat) (hb : ∀ x ∈ rest, x < 256) :
    rest.headD 0 < 256 := by
  cases rest with
  | nil => simp
  | cons x xs => exact hb x (by simp)

/-- Every emitted group index is a 5-bit value. -/
theorem encodeGroups_lt (shift : Nat) (bytes : List Nat) (h8 : shift < 8)
    (hb : ∀ x ∈ bytes, x < 256) :
    ∀ g ∈ Base32.encodeGroups shift bytes, g < 32 := by
  revert h8 hb
  induction shift, bytes using Base32.encodeGroups.induct with
  | case1 shift =>
    intro h8 hb
    rw [encodeGroups_nil]
    simp
  | case2 shift b rest h s ih =>
    intro h8 hb
    have hs : s = (shift + 5) % 8 := rfl
    have hrest : ∀ x ∈ rest, x < 256 := fun x hx => hb x (by simp [hx])
    have ihx := ih (by omega) hrest
    rw [hs] at ihx
    have hhd : rest.headD 0 < 256 := headD_lt_of_bounded rest hrest
    obtain ⟨nb, hnbe⟩ : ∃ nb, rest.headD 0 = nb := ⟨_, rfl⟩
    rw [hnbe] at hhd
    rw [Base32.encodeGroups]
    simp only [if_pos h, hnbe]
    intro g hg
    rcases List.mem_cons.mp hg with rfl | hg2
    · have hmask : b &&& (0xff >>> shift) ≤ 0xff >>> shift := Nat.and_le_right
      rw [show (32 : Nat) = 2 ^ 5 from rfl]
      apply Nat.or_lt_two_pow
      · rw [Nat.shiftLeft_eq]
        interval_cases shift <;> simp at hmask ⊢ <;> omega
      · rw [Nat.shiftRight_eq_div_pow]
        interval_cases shift <;> norm_num <;> omega
    · exact ihx g hg2
  | case3 shift b rest h1 s hs0 ih =>
    intro h8 hb
    have hs : s = (shift + 5) % 8 := rfl
    have h2 : (shift + 5) % 8 = 0 := by rw [← hs]; exact hs0
    have hrest : ∀ x ∈ rest, x < 256 := fun x hx => hb x (by simp [hx])
    have ihx := ih (by omega) hrest
    rw [Base32.encodeGroups]
    simp only [if_neg h1, h2, if_pos rfl]
    intro g hg
    rcases List.mem_cons.mp hg with rfl | hg2
    · have : (b >>> (8 - (shift + 5))) &&& 0x1f ≤ 0x1f := Nat.and_le_right
      omega
    · exact ihx g hg2
  | case4 shift b rest h1 s hs0 ih =>
    intro h8 hb
    have hs : s = (shift + 5) % 8 := rfl
    have h2 : ¬ ((shift + 5) % 8 = 0) := by rw [← hs]; exact hs0
    have ihx := ih (by omega) hb
    rw [hs] at ihx
    rw [Base32.encodeGroups]
    simp only [if_neg h1, if_neg h2]
    intro g hg
    rcases List.mem_cons.mp hg with rfl | hg2
    · have : (b >>> (8 - (shift + 5))) &&& 0x1f ≤ 0x1f := Nat.and_le_right
      omega
    · exact ihx g hg2

/-! ## Constant-time comparison: functional characterization -/

theorem char_toNat_inj (a b : Char) (h : a.toNat = b.toNat) : a = b := by
  have h2 := congrArg Char.ofNat h
  rwa [Char.ofNat_toNat, Char.ofNat_toNat] at h2

theorem foldl_or_xor_eq_zero (l : List (Char × Char)) (r : Nat) :
    (l.foldl (fun result p => result ||| (p.1.toNat ^^^ p.2.toNat)) r) = 0 ↔
      r = 0 ∧ ∀ p ∈ l, p.1 = p.2 := by
  induction l generalizing r with
  | nil => simp
  | cons p l ih =>
    simp only [List.foldl_cons]
    rw [ih]
    constructor
    · rintro ⟨h1, h2⟩
      obtain ⟨hr, hx⟩ := (JsBits.or_eq_zero _ _).mp h1
      refine ⟨hr, ?_⟩
      intro q hq
      rcases List.mem_cons.mp hq with rfl | hq2
      · exact char_toNat_inj _ _ (Nat.xor_eq_zero.mp hx)
      · exact h2 q hq2
    · rintro ⟨hr, hall⟩
      have hp : p.1 = p.2 := hall p (by simp)
      refine ⟨?_, fun q hq => hall q (by simp [hq])⟩
      rw [hr, hp]
      simp

theorem list_eq_of_zip_eq (a : List Char) :
    ∀ b : List Char, a.length = b.length →
      (∀ p ∈ a.zip b, p.1 = p.2) → a = b := by
  induction a with
  | nil =>
    intro b hlen _
    cases b with
    | nil => rfl
    | cons y ys => simp at hlen
  | cons x xs ih =>
    intro b hlen hp
    cases b with
    | nil => simp at hlen
    | cons y ys =>
      have hx : x = y := hp (x, y) (by simp)
      have hxs : xs = ys := by
        refine ih ys (by simpa using hlen) ?_
        intro p hm
        exact hp p (by simp [hm])
      rw [hx, hxs]

theorem zip_self_eq (a : List Char) : ∀ p ∈ a.zip a, p.1 = p.2 := by
  induction a with
  | nil => simp
  | cons x xs ih =>
    intro p hp
    rcases List.mem_cons.mp hp with rfl | hp2
    · rfl
    · exact ih p hp2

/-- `timingSafeEqual` succeeds exactly on identical strings. -/
theorem timingSafeEqual_iff (a b : List Char) :
    Totp.timingSafeEqual a b = true ↔ a = b := by
  unfold Totp.timingSafeEqual
  by_cases hlen : a.length = b.length
  · rw [if_neg (not_not_intro hlen)]
    rw [beq_iff_eq, foldl_or_xor_eq_zero]
    constructor
    · rintro ⟨-, hall⟩
      exact list_eq_of_zip_eq a b hlen hall
    · rintro rfl
      exact ⟨rfl, zip_self_eq a⟩
  · rw [if_pos hlen]
    simp only [Bool.false_eq_true, false_iff]
    intro hcontra
    exact hlen (by rw [hcontra])

theorem timingSafeEqual_refl (a : List Char) : Totp.timingSafeEqual a a = true :=
  (timingSafeEqual_iff a a).mpr rfl

/-! ## HOTP generation: evaluation lemmas -/

/-- With a secret decoding to at least 10 bytes, `GenerateHotpCode` returns
the truncated, formatted code of the digest of the 8-byte counter state. -/
theorem GenerateHotpCode_ok (hmac : Totp.Algorithm → List Nat → List Nat → List Nat)
    (counter : Int) (secret : List Char) (options : Totp.HotpOptions)
    (bytes : List Nat) (hdec : Base32.DecodeBase32 secret = .ok bytes)
    (hlen : 10 ≤ bytes.length) :
    Totp.GenerateHotpCode hmac counter secret options =
      .ok (Totp.hotpCodeOf
        (hmac (options.algorithm.getD Totp.DefaultAlgorithm) bytes
          (Totp.GetCounterState counter))
        (options.digits.getD Totp.DefaultDigits)) := by
  unfold Totp.GenerateHotpCode
  rw [hdec]
  simp only [Except.mapError]
  rw [show ((Except.ok bytes : Except Totp.TotpErr (List Nat)) >>= fun keyBytes =>
      (if keyBytes.length < 10 then
        throw (Totp.TotpErr.invalidSecret keyBytes.length)
      else
        pure (Totp.hotpCodeOf
          (hmac (options.algorithm.getD Totp.DefaultAlgorithm) keyBytes
            (Totp.GetCounterState counter))
          (options.digits.getD Totp.DefaultDigits)))) =
    (if bytes.length < 10 then
        throw (Totp.TotpErr.invalidSecret bytes.length)
      else
        pure (Totp.hotpCodeOf
          (hmac (options.algorithm.getD Totp.DefaultAlgorithm) bytes
            (Totp.GetCounterState counter))
          (options.digits.getD Totp.DefaultDigits))) from rfl]
  rw [if_neg (by omega)]
  rfl

/-- With a secret decoding to fewer than 10 bytes, `GenerateHotpCode`
throws `InvalidSecretError`, whatever the options. -/
theorem GenerateHotpCode_short (hmac : Totp.Algorithm → List Nat → List Nat → List Nat)
    (counter : Int) (secret : List Char) (options : Totp.HotpOptions)
    (bytes : List Nat) (hdec : Base32.DecodeBase32 secret = .ok bytes)
    (hlen : bytes.length < 10) :
    Totp.GenerateHotpCode hmac counter secret options =
      .error (.invalidSecret bytes.length) := by
  unfold Totp.GenerateHotpCode
  rw [hdec]
  simp only [Except.mapError]
  rw [show ((Except.ok bytes : Except Totp.TotpErr (List Nat)) >>= fun keyBytes =>
      (if keyBytes.length < 10 then
        throw (Totp.TotpErr.invalidSecret keyBytes.length)
      else
        pure (Totp.hotpCodeOf
          (hmac (options.algorithm.getD Totp.DefaultAlgorithm) keyBytes
            (Totp.GetCounterState counter))
          (options.digits.getD Totp.DefaultDigits)))) =
    (if bytes.length < 10 then
        throw (Totp.TotpErr.invalidSecret bytes.length)
      else
        pure (Totp.hotpCodeOf
          (hmac (options.algorithm.getD Totp.DefaultAlgorithm) bytes
            (Totp.GetCounterState counter))
          (options.digits.getD Totp.DefaultDigits))) from rfl]
  rw [if_pos hlen]
  rfl

/-- A generated code has exactly `digits` characters (for positive digit
counts: `slice(-digits)` keeps at most `digits` characters and `padStart`
fills up to `digits`). -/
theorem hotpCodeOf_length (hashBytes : List Nat) (digits : Nat) (hd : 1 ≤ digits) :
    (Totp.hotpCodeOf hashBytes digits).length = digits := by
  unfold Totp.hotpCodeOf Totp.jsPadStartZero Totp.jsSliceNeg
  have hne : ¬ (digits = 0) := by omega
  simp only [if_neg hne, List.length_append, List.length_replicate, List.length_drop]
  omega

/-! ## Skew search: the candidate counter list -/

theorem InterleaveArrays_nil_nil : Totp.InterleaveArrays [] [] = [] := rfl

theorem InterleaveArrays_cons (x y : Int) (a b : List Int) :
    Totp.InterleaveArrays (x :: a) (y :: b) = x :: y :: Totp.InterleaveArrays a b := by
  unfold Totp.InterleaveArrays
  have hmax : max (x :: a).length (y :: b).length = max a.length b.length + 1 := by
    simp only [List.length_cons]
    omega
  rw [hmax, List.range_succ_eq_map, List.flatMap_cons]
  simp only [List.get?_cons_zero, Option.toList_some, List.flatMap_map]
  congr 1

theorem mem_InterleaveArrays (x : Int) (a b : List Int) :
    x ∈ Totp.InterleaveArrays a b ↔ x ∈ a ∨ x ∈ b := by
  unfold Totp.InterleaveArrays
  simp only [List.mem_flatMap, List.mem_range, List.mem_append]
  constructor
  · rintro ⟨i, _, hmem⟩
    rcases hmem with hx | hx
    · exact Or.inl (List.get?_mem (by simpa using hx))
    · exact Or.inr (List.get?_mem (by simpa using hx))
  · rintro (hx | hx)
    · obtain ⟨i, hi⟩ := List.mem_iff_get?.mp hx
      have hlt : i < a.length := (List.get?_eq_some.mp hi).1
      exact ⟨i, by omega, Or.inl (by simpa using hi)⟩
    · obtain ⟨i, hi⟩ := List.mem_iff_get?.mp hx
      have hlt : i < b.length := (List.get?_eq_some.mp hi).1
      exact ⟨i, by omega, Or.inr (by simpa using hi)⟩

theorem InterleaveArrays_get? (i : Nat) :
    ∀ (a b : List Int), i < a.length → i < b.length →
      (Totp.InterleaveArrays a b).get? (2 * i) = a.get? i ∧
        (Totp.InterleaveArrays a b).get? (2 * i + 1) = b.get? i := by
  induction i with
  | zero =>
    intro a b ha hb
    match a, b with
    | x :: a, y :: b =>
      rw [InterleaveArrays_cons]
      simp
  | succ i ih =>
    intro a b ha hb
    match a, b with
    | x :: a, y :: b =>
      rw [InterleaveArrays_cons]
      have h1 : 2 * (i + 1) = (2 * i + 1) + 1 := by omega
      rw [h1]
      simp only [List.get?_cons_succ]
      exact ih a b (by simpa using ha) (by simpa using hb)

/-- The candidate counter list covers exactly the window
`[counter − left, counter + right]`. -/
theorem mem_counterValuesOf (c : Int) (L R : Nat) (x : Int) :
    x ∈ Totp.counterValuesOf c (some (L, R)) ↔ c - L ≤ x ∧ x ≤ c + R := by
  unfold Totp.counterValuesOf
  constructor
  · intro hx
    rcases List.mem_cons.mp hx with rfl | hx2
    · omega
    · rcases (mem_InterleaveArrays _ _ _).mp hx2 with hx3 | hx3
      · obtain ⟨i, hi, hfx⟩ := List.mem_map.mp hx3
        have hiL : i < L := List.mem_range.mp hi
        omega
      · obtain ⟨i, hi, hfx⟩ := List.mem_map.mp hx3
        have hiR : i < R := List.mem_range.mp hi
        omega
  · rintro ⟨h1, h2⟩
    rcases lt_trichotomy x c with hlt | rfl | hgt
    · exact List.mem_cons.mpr (Or.inr ((mem_InterleaveArrays _ _ _).mpr (Or.inl
        (List.mem_map.mpr ⟨(c - x - 1).toNat, List.mem_range.mpr (by omega), by omega⟩))))
    · exact List.mem_cons.mpr (Or.inl rfl)
    · exact List.mem_cons.mpr (Or.inr ((mem_InterleaveArrays _ _ _).mpr (Or.inr
        (List.mem_map.mpr ⟨(x - c - 1).toNat, List.mem_range.mpr (by omega), by omega⟩))))

/-! ## Spec-side statements of dynamic truncation and formatting -/

/-- The spec's dynamic truncation (RFC 4226 §5.3), stated arithmetically:
`offset` is the low nibble of the digest's last byte, and the 31-bit
integer combines `hash[offset..offset+4]` big-endian with the top bit of
the first byte masked. -/
def specDynamicTruncation (hash : List Nat) : Nat :=
  let offset := hash.getLastD 0 % 16
  (hash.getD offset 0 % 128) * 16777216 + hash.getD (offset + 1) 0 * 65536 +
    hash.getD (offset + 2) 0 * 256 + hash.getD (offset + 3) 0

/-- The spec's formatting: the rightmost `digits` characters of the decimal
representation, left-padded with '0' to exactly `digits` characters. -/
def specFormatCode (digits value : Nat) : List Char :=
  let s := (Nat.repr value).data
  List.replicate (digits - s.length) '0' ++ s.drop (s.length - digits)

theorem getD_lt_of_bounded (l : List Nat) (h : ∀ x ∈ l, x < 256) (i : Nat)
    (hi : i < l.length) : l.getD i 0 < 256 := by
  refine h _ ?_
  rw [List.getD_eq_getD_get? l 0 i, List.get?_eq_get hi]
  simp only [Option.getD_some]
  exact List.get_mem l _ _

theorem getD_last_eq (l : List Nat) (h : l ≠ []) :
    l.getD (l.length - 1) 0 = l.getLastD 0 := by
  rw [List.getD_eq_getD_get? l 0 (l.length - 1), List.getLastD_eq_getLast? 0 l,
    List.getLast?_eq_get? l]

/-- The dynamic-truncation `|`-chain evaluated as big-endian arithmetic. -/
theorem truncate_or_eval (h0 h1 h2 h3 : Nat) (hb1 : h1 < 256) (hb2 : h2 < 256)
    (hb3 : h3 < 256) :
    ((h0 &&& 0x7f) <<< 24) ||| ((h1 &&& 0xff) <<< 16) ||| ((h2 &&& 0xff) <<< 8) |||
      (h3 &&& 0xff) =
      (h0 % 128) * 16777216 + h1 * 65536 + h2 * 256 + h3 := by
  simp only [JsBits.and127, JsBits.and255, Nat.shiftLeft_eq]
  norm_num
  rw [Nat.mod_eq_of_lt hb1, Nat.mod_eq_of_lt hb2, Nat.mod_eq_of_lt hb3]
  have e1 : h0 % 128 * 16777216 ||| h1 * 65536 = h0 % 128 * 16777216 + h1 * 65536 :=
    JsBits.or_eq_add 24 _ _ (by omega) (by omega)
  rw [e1]
  have e2 : h0 % 128 * 16777216 + h1 * 65536 ||| h2 * 256 =
      h0 % 128 * 16777216 + h1 * 65536 + h2 * 256 :=
    JsBits.or_eq_add 16 _ _ (by omega) (by omega)
  rw [e2]
  have e3 : h0 % 128 * 16777216 + h1 * 65536 + h2 * 256 ||| h3 =
      h0 % 128 * 16777216 + h1 * 65536 + h2 * 256 + h3 :=
    JsBits.or_eq_add 8 _ _ (by omega) (by omega)
  rw [e3]

/-- The code's truncation-and-format tail agrees with the spec's statement
of it, for digests of at least 20 in-range bytes and a positive digit
count. -/
theorem hotpCodeOf_eq_spec (hash : List Nat) (digits : Nat)
    (hbytes : ∀ x ∈ hash, x < 256) (hlen : 20 ≤ hash.length) (hd : 1 ≤ digits) :
    Totp.hotpCodeOf hash digits = specFormatCode digits (specDynamicTruncation hash) := by
  have hne : hash ≠ [] := by
    intro h
    rw [h] at hlen
    simp at hlen
  have hoff_eq : hash.getD (hash.length - 1) 0 &&& 15 = hash.getLastD 0 % 16 := by
    rw [getD_last_eq hash hne, JsBits.and15]
  have hofflt : hash.getLastD 0 % 16 < 16 := by omega
  unfold Totp.hotpCodeOf specDynamicTruncation specFormatCode Totp.jsPadStartZero
    Totp.jsSliceNeg
  rw [hoff_eq]
  simp only []
  rw [truncate_or_eval _ _ _ _
    (getD_lt_of_bounded hash hbytes _ (by omega))
    (getD_lt_of_bounded hash hbytes _ (by omega))
    (getD_lt_of_bounded hash hbytes _ (by omega))]
  rw [if_neg (by omega)]
  simp only [Nat.add_zero]
  congr 1
  rw [List.length_drop]
  congr 1
  omega

/-! ## Claim theorems -/

/-- C4: For every byte sequence `b` and every padding flag `pad`,
`DecodeBase32 (EncodeToBase32 b pad)` returns exactly `b`. -/
theorem C4_base32_roundtrip (b : List Nat) (pad : Bool) (hb : ∀ x ∈ b, x < 256) :
    Base32.DecodeBase32 (Base32.EncodeToBase32 b pad) = .ok b :=
  decode_encode b pad hb

/-- C4 witness: the round-trip at the concrete bytes of "foo", padded. -/
theorem C4_base32_roundtrip_witness :
    (∀ x ∈ [102, 111, 111], x < 256) ∧
      Base32.DecodeBase32 (Base32.EncodeToBase32 [102, 111, 111] true) = .ok [102, 111, 111] :=
  ⟨by decide, C4_base32_roundtrip [102, 111, 111] true (by decide)⟩

/-- C5 counterexample: the `for-long` decoder the base32 index exports does
NOT raise an error on the invalid characters '0', '1', '8', '9' (their
`ByteTable` entry 0xff is used unchecked as a 5-bit value): each of
"ABC0", "ABC1", "ABC8", "ABC9" decodes without error to the garbage bytes
`[0x00, 0x4f]`, although the repository's own test suite asserts that all
four throw. -/
theorem C5_decode_accepts_invalid_digits :
    Base32.DecodeBase32 "ABC0".data = .ok [0x00, 0x4f] ∧
    Base32.DecodeBase32 "ABC1".data = .ok [0x00, 0x4f] ∧
    Base32.DecodeBase32 "ABC8".data = .ok [0x00, 0x4f] ∧
    Base32.DecodeBase32 "ABC9".data = .ok [0x00, 0x4f] := by
  refine ⟨?_, ?_, ?_, ?_⟩ <;> rfl

/-- Big-endian value of a byte sequence. -/
def beBytesToNat (l : List Nat) : Nat :=
  l.foldl (fun a b => 256 * a + b) 0

/-- C6 failing input: `GetCounterState` uses the JS 32-bit operators
`counter & 0xff` / `counter >>= 8`, so the counter 2^32 (well inside the
unsigned 64-bit range) serializes to eight zero bytes — the big-endian
value of the message is 0, not 2^32. -/
theorem C6_counter_serialization_fails_at_2pow32 :
    Totp.GetCounterState 4294967296 = List.replicate 8 0 ∧
    beBytesToNat (Totp.GetCounterState 4294967296) = 0 ∧
    beBytesToNat (Totp.GetCounterState 4294967296) ≠ 4294967296 := by
  refine ⟨?_, ?_, ?_⟩ <;> decide

/-- C8: `timingSafeEqual` (length check, then XOR-accumulation over every
position, success iff the accumulator is 0) returns true exactly on
identical strings. -/
theorem C8_timing_safe_equal_iff_eq (a b : List Char) :
    Totp.timingSafeEqual a b = true ↔ a = b :=
  timingSafeEqual_iff a b

/-- C9: `EstimateTimeLeft` equals `period − (⌊now⌋ mod period)` and always
lies in the half-open interval `(0, period]`. -/
theorem C9_estimate_time_left_range (nowMs period : Nat) (hp : 0 < period) :
    Totp.EstimateTimeLeft nowMs period = period - (nowMs / 1000) % period ∧
    0 < Totp.EstimateTimeLeft nowMs period ∧
    Totp.EstimateTimeLeft nowMs period ≤ period := by
  unfold Totp.EstimateTimeLeft Totp.systemTimeFloor
  refine ⟨rfl, ?_, ?_⟩
  · have : (nowMs / 1000) % period < period := Nat.mod_lt _ hp
    omega
  · omega

/-- C9 witness: a concrete clock reading and the default 30-second
period. -/
theorem C9_estimate_time_left_range_witness :
    (0 < 30) ∧
      (Totp.EstimateTimeLeft 1726000123456 30 = 30 - (1726000123456 / 1000) % 30 ∧
        0 < Totp.EstimateTimeLeft 1726000123456 30 ∧
        Totp.EstimateTimeLeft 1726000123456 30 ≤ 30) :=
  ⟨by decide, C9_estimate_time_left_range 1726000123456 30 (by decide)⟩

/-- C1: For every counter and every secret decoding to at least 10 bytes,
`GenerateHotpCode` returns exactly the RFC 4226 dynamic truncation of the
HMAC digest of the 8-byte counter state, formatted as the rightmost
`digits` characters of the decimal representation left-padded with '0' to
exactly `digits` characters (`digits` defaulting to 6); the truncated
value is a 31-bit integer. -/
theorem C1_generate_hotp_rfc4226
    (hmac : Totp.Algorithm → List Nat → List Nat → List Nat)
    (counter : Int) (secret : List Char) (options : Totp.HotpOptions)
    (keyBytes : List Nat) (digits : Nat) (digest : List Nat)
    (hdec : Base32.DecodeBase32 secret = .ok keyBytes)
    (hkey : 10 ≤ keyBytes.length)
    (hdigits : digits = options.digits.getD Totp.DefaultDigits)
    (hd6 : 6 ≤ digits)
    (hhash : digest = hmac (options.algorithm.getD Totp.DefaultAlgorithm) keyBytes
      (Totp.GetCounterState counter))
    (hbytes : ∀ x ∈ digest, x < 256)
    (hlen : 20 ≤ digest.length) :
    Totp.GenerateHotpCode hmac counter secret options =
      .ok (specFormatCode digits (specDynamicTruncation digest)) ∧
    (specFormatCode digits (specDynamicTruncation digest)).length = digits ∧
    specDynamicTruncation digest < 2 ^ 31 := by
  subst hdigits
  refine ⟨?_, ?_, ?_⟩
  · rw [GenerateHotpCode_ok hmac counter secret options keyBytes hdec hkey, ← hhash]
    rw [hotpCodeOf_eq_spec _ _ hbytes hlen (by omega)]
  · unfold specFormatCode
    simp only [List.length_append, List.length_replicate, List.length_drop]
    omega
  · unfold specDynamicTruncation
    simp only []
    have h0 := getD_lt_of_bounded digest hbytes (digest.getLastD 0 % 16) (by omega)
    have h1 := getD_lt_of_bounded digest hbytes (digest.getLastD 0 % 16 + 1) (by omega)
    have h2 := getD_lt_of_bounded digest hbytes (digest.getLastD 0 % 16 + 2) (by omega)
    have h3 := getD_lt_of_bounded digest hbytes (digest.getLastD 0 % 16 + 3) (by omega)
    omega

/-- C1 witness: a 20-byte digest provider, the 16-character secret
"JBSWY3DPEHPK3PXP" (10 bytes), counter 42, default options. -/
theorem C1_generate_hotp_rfc4226_witness :
    Totp.GenerateHotpCode (fun _ _ _ => List.range 20) 42 "JBSWY3DPEHPK3PXP".data {} =
      .ok (specFormatCode 6 (specDynamicTruncation (List.range 20))) ∧
    (specFormatCode 6 (specDynamicTruncation (List.range 20))).length = 6 ∧
    specDynamicTruncation (List.range 20) < 2 ^ 31 :=
  C1_generate_hotp_rfc4226 (fun _ _ _ => List.range 20) 42 "JBSWY3DPEHPK3PXP".data {}
    [72, 101, 108, 108, 111, 33, 222, 173, 190, 239] 6 (List.range 20)
    (by rfl) (by decide) (by rfl) (by decide) (by rfl) (by decide) (by decide)

/-- C3: With a secret that decodes to fewer than 10 bytes,
`GenerateHotpCode` throws the dedicated `InvalidSecretError` whatever the
options; and a secret produced by `GenerateRandomSecret` from 10 random
bytes decodes back to those 10 bytes, so generation succeeds with it. -/
theorem C3_secret_strength_gate
    (hmac : Totp.Algorithm → List Nat → List Nat → List Nat) :
    (∀ (counter : Int) (secret : List Char) (options : Totp.HotpOptions)
        (bytes : List Nat),
      Base32.DecodeBase32 secret = .ok bytes → bytes.length < 10 →
      Totp.GenerateHotpCode hmac counter secret options =
        .error (.invalidSecret bytes.length)) ∧
    (∀ (secretBytes : List Nat) (counter : Int) (options : Totp.HotpOptions),
      secretBytes.length = 10 → (∀ x ∈ secretBytes, x < 256) →
      Base32.DecodeBase32 (Totp.GenerateRandomSecret secretBytes) = .ok secretBytes ∧
      ∃ code, Totp.GenerateHotpCode hmac counter (Totp.GenerateRandomSecret secretBytes)
        options = .ok code) := by
  constructor
  · intro counter secret options bytes hdec hlen
    exact GenerateHotpCode_short hmac counter secret options bytes hdec hlen
  · intro secretBytes counter options hlen hbytes
    have hdec : Base32.DecodeBase32 (Totp.GenerateRandomSecret secretBytes) =
        .ok secretBytes := decode_encode secretBytes false hbytes
    exact ⟨hdec, ⟨_, GenerateHotpCode_ok hmac counter _ options secretBytes hdec (by omega)⟩⟩

/-- C3 witness: "MY======" decodes to the single byte 0x66, so generation
throws the secret-strength error; a 10-byte random secret passes the
gate. -/
theorem C3_secret_strength_gate_witness :
    Totp.GenerateHotpCode (fun _ _ _ => List.range 20) 0 "MY======".data {} =
      .error (.invalidSecret 1) ∧
    (∃ code, Totp.GenerateHotpCode (fun _ _ _ => List.range 20) 0
      (Totp.GenerateRandomSecret [0, 1, 2, 3, 4, 5, 6, 7, 8, 9]) {} = .ok code) :=
  ⟨(C3_secret_strength_gate (fun _ _ _ => List.range 20)).1 0 "MY======".data {} [0x66]
      (by rfl) (by decide),
    ((C3_secret_strength_gate (fun _ _ _ => List.range 20)).2
      [0, 1, 2, 3, 4, 5, 6, 7, 8, 9] 0 {} (by decide) (by decide)).2⟩

/-- C7: `VerifyHotpCode` throws the distinct `InvalidCodeLengthError` for
presented codes outside [6,10]; with `strictDigits` and no expected
`digits` value (and an in-range code) it throws; with `strictDigits` and
an expected value it returns false (no error) when the in-range code's
length differs from it. -/
theorem C7_verify_code_length_errors
    (hmac : Totp.Algorithm → List Nat → List Nat → List Nat)
    (code : List Char) (counter : Int) (secret : List Char)
    (options : Totp.HotpOptions) :
    (code.length < 6 ∨ 10 < code.length →
      Totp.VerifyHotpCode hmac code counter secret options =
        .error (.invalidCodeLength "Code length must be between 6 and 10 digits")) ∧
    (6 ≤ code.length → code.length ≤ 10 → options.strictDigits = true →
      options.digits = none →
      Totp.VerifyHotpCode hmac code counter secret options =
        .error (.invalidCodeLength
          "strictDigits option requires specifying expected digits length")) ∧
    (∀ expected : Nat, 6 ≤ code.length → code.length ≤ 10 →
      options.strictDigits = true → options.digits = some expected →
      code.length ≠ expected →
      Totp.VerifyHotpCode hmac code counter secret options = .ok false) := by
  refine ⟨?_, ?_, ?_⟩
  · intro hrange
    unfold Totp.VerifyHotpCode
    rw [if_pos (by omega)]
  · intro h6 h10 hstrict hnone
    unfold Totp.VerifyHotpCode
    rw [if_neg (by omega), hstrict, hnone]
    simp
  · intro expected h6 h10 hstrict hsome hne
    unfold Totp.VerifyHotpCode
    rw [if_neg (by omega), hstrict, hsome]
    simp only [if_true]
    rw [if_pos hne]

/-- C7 witness: a 5-character code triggers the length error; an in-range
code with `strictDigits` and no expected digits triggers the caller-misuse
error; with expected digits 7 a 6-character code is rejected with
`false`. -/
theorem C7_verify_code_length_errors_witness :
    Totp.VerifyHotpCode (fun _ _ _ => List.range 20) ['1', '2', '3', '4', '5'] 0
        "JBSWY3DPEHPK3PXP".data {} =
      .error (.invalidCodeLength "Code length must be between 6 and 10 digits") ∧
    Totp.VerifyHotpCode (fun _ _ _ => List.range 20) ['1', '2', '3', '4', '5', '6'] 0
        "JBSWY3DPEHPK3PXP".data { strictDigits := true } =
      .error (.invalidCodeLength
        "strictDigits option requires specifying expected digits length") ∧
    Totp.VerifyHotpCode (fun _ _ _ => List.range 20) ['1', '2', '3', '4', '5', '6'] 0
        "JBSWY3DPEHPK3PXP".data { strictDigits := true, digits := some 7 } = .ok false :=
  ⟨(C7_verify_code_length_errors (fun _ _ _ => List.range 20) ['1', '2', '3', '4', '5'] 0
      "JBSWY3DPEHPK3PXP".data {}).1 (by decide),
    (C7_verify_code_length_errors (fun _ _ _ => List.range 20) ['1', '2', '3', '4', '5', '6'] 0
      "JBSWY3DPEHPK3PXP".data { strictDigits := true }).2.1 (by decide) (by decide) rfl rfl,
    (C7_verify_code_length_errors (fun _ _ _ => List.range 20) ['1', '2', '3', '4', '5', '6'] 0
      "JBSWY3DPEHPK3PXP".data { strictDigits := true, digits := some 7 }).2.2 7 (by decide)
      (by decide) rfl rfl (by decide)⟩

theorem counterValues_eval_02 (c : Int) :
    Totp.counterValuesOf c (some (0, 2)) = [c, c + 1, c + 2] := by
  unfold Totp.counterValuesOf Totp.InterleaveArrays
  norm_num [List.range_succ]

theorem counterValues_eval_00 (c : Int) :
    Totp.counterValuesOf c (some (0, 0)) = [c] := by
  unfold Totp.counterValuesOf Totp.InterleaveArrays
  norm_num

/-- For an in-range code and non-strict options, verification is exactly
the skew search over the candidate counters, with the presented code's
length as the effective digit count. -/
theorem VerifyHotpCode_eval (hmac : Totp.Algorithm → List Nat → List Nat → List Nat)
    (code : List Char) (counter : Int) (secret : List Char)
    (options : Totp.HotpOptions) (hlen : 6 ≤ code.length ∧ code.length ≤ 10)
    (hstrict : options.strictDigits = false) :
    Totp.VerifyHotpCode hmac code counter secret options =
      Totp.tryCounters hmac code secret options code.length
        (Totp.counterValuesOf counter options.allowedSkew) := by
  unfold Totp.VerifyHotpCode
  rw [if_neg (by omega), hstrict]
  rfl

theorem tryCounters_cons (hmac : Totp.Algorithm → List Nat → List Nat → List Nat)
    (code secret : List Char) (options : Totp.HotpOptions) (digits : Nat)
    (x : Int) (rest : List Int) :
    Totp.tryCounters hmac code secret options digits (x :: rest) =
      (do
        let generatedCode ←
          Totp.GenerateHotpCode hmac x secret { options with digits := some digits }
        if Totp.timingSafeEqual generatedCode code then .ok true
        else Totp.tryCounters hmac code secret options digits rest) := rfl

theorem tryCounters_cons_match (hmac : Totp.Algorithm → List Nat → List Nat → List Nat)
    (code secret : List Char) (options : Totp.HotpOptions) (digits : Nat)
    (x : Int) (rest : List Int)
    (hgen : Totp.GenerateHotpCode hmac x secret { options with digits := some digits } =
      .ok code) :
    Totp.tryCounters hmac code secret options digits (x :: rest) = .ok true := by
  rw [tryCounters_cons, hgen]
  show (if Totp.timingSafeEqual code code = true then (Except.ok true : Except Totp.TotpErr Bool)
      else Totp.tryCounters hmac code secret options digits rest) = Except.ok true
  rw [timingSafeEqual_refl]
  rfl

theorem tryCounters_cons_step (hmac : Totp.Algorithm → List Nat → List Nat → List Nat)
    (code secret : List Char) (options : Totp.HotpOptions) (digits : Nat)
    (x : Int) (rest : List Int) (g : List Char)
    (hgen : Totp.GenerateHotpCode hmac x secret { options with digits := some digits } =
      .ok g)
    (hne : g ≠ code) :
    Totp.tryCounters hmac code secret options digits (x :: rest) =
      Totp.tryCounters hmac code secret options digits rest := by
  cases h : Totp.timingSafeEqual g code with
  | true => exact absurd ((timingSafeEqual_iff g code).mp h) hne
  | false =>
    rw [tryCounters_cons, hgen]
    show (if Totp.timingSafeEqual g code = true then (Except.ok true : Except Totp.TotpErr Bool)
        else Totp.tryCounters hmac code secret options digits rest) =
      Totp.tryCounters hmac code secret options digits rest
    rw [h]
    rfl

/-- C2: The verification search tries the reference counter first, then
alternates one step backward, one step forward, covering exactly the
counters in `[c − left, c + right]`; consequently a code generated at
`c + 1` verifies at `c` with skew `{left 0, right 2}`, and with skew
`{left 0, right 0}` it is rejected whenever the code generated at `c`
differs from it (HOTP sensitivity, which the spec itself qualifies as
holding with overwhelming probability). -/
theorem C2_verify_skew_search
    (hmac : Totp.Algorithm → List Nat → List Nat → List Nat)
    (c : Int) (secret : List Char) (keyBytes : List Nat) (L R : Nat)
    (hdec : Base32.DecodeBase32 secret = .ok keyBytes)
    (hkey : 10 ≤ keyBytes.length) :
    (∀ x : Int, x ∈ Totp.counterValuesOf c (some (L, R)) ↔ c - L ≤ x ∧ x ≤ c + R) ∧
    ((Totp.counterValuesOf c (some (L, R))).get? 0 = some c) ∧
    (∀ i : Nat, i < L → i < R →
      (Totp.counterValuesOf c (some (L, R))).get? (2 * i + 1) = some (c - ((i : Int) + 1)) ∧
      (Totp.counterValuesOf c (some (L, R))).get? (2 * i + 2) = some (c + ((i : Int) + 1))) ∧
    (∀ code : List Char,
      Totp.GenerateHotpCode hmac (c + 1) secret {} = .ok code →
      Totp.VerifyHotpCode hmac code c secret { allowedSkew := some (0, 2) } = .ok true ∧
      (Totp.GenerateHotpCode hmac c secret {} ≠ .ok code →
        Totp.VerifyHotpCode hmac code c secret { allowedSkew := some (0, 0) } = .ok false)) := by
  refine ⟨mem_counterValuesOf c L R, rfl, ?_, ?_⟩
  · intro i hiL hiR
    have hlen1 : i < ((List.range L).map (fun (i : Nat) => c - ((i : Int) + 1))).length := by
      simp [hiL]
    have hlen2 : i < ((List.range R).map (fun (i : Nat) => c + ((i : Int) + 1))).length := by
      simp [hiR]
    have hback := InterleaveArrays_get? i
      ((List.range L).map (fun (i : Nat) => c - ((i : Int) + 1)))
      ((List.range R).map (fun (i : Nat) => c + ((i : Int) + 1))) hlen1 hlen2
    have hcv : Totp.counterValuesOf c (some (L, R)) =
        c :: Totp.InterleaveArrays
          ((List.range L).map (fun (i : Nat) => c - ((i : Int) + 1)))
          ((List.range R).map (fun (i : Nat) => c + ((i : Int) + 1))) := rfl
    constructor
    · rw [hcv, List.get?_cons_succ, hback.1, List.get?_map, List.get?_range hiL]
      rfl
    · rw [hcv, show 2 * i + 2 = (2 * i + 1) + 1 from by omega, List.get?_cons_succ,
        hback.2, List.get?_map, List.get?_range hiR]
      rfl
  · intro code hcode
    have hg1 : Totp.GenerateHotpCode hmac (c + 1) secret {} =
        .ok (Totp.hotpCodeOf (hmac Totp.DefaultAlgorithm keyBytes
          (Totp.GetCounterState (c + 1))) 6) :=
      GenerateHotpCode_ok hmac (c + 1) secret {} keyBytes hdec hkey
    have hceq : code = Totp.hotpCodeOf (hmac Totp.DefaultAlgorithm keyBytes
        (Totp.GetCounterState (c + 1))) 6 := by
      rw [hcode] at hg1
      exact Except.ok.inj hg1
    have hlen6 : code.length = 6 := by
      rw [hceq]
      exact hotpCodeOf_length _ 6 (by omega)
    constructor
    · rw [VerifyHotpCode_eval hmac code c secret _ (by omega) rfl, hlen6]
      rw [show ({ allowedSkew := some (0, 2) } : Totp.HotpOptions).allowedSkew =
        some (0, 2) from rfl]
      rw [counterValues_eval_02]
      have hg0 : Totp.GenerateHotpCode hmac c secret
          { ({ allowedSkew := some (0, 2) } : Totp.HotpOptions) with digits := some 6 } =
          .ok (Totp.hotpCodeOf (hmac Totp.DefaultAlgorithm keyBytes
            (Totp.GetCounterState c)) 6) :=
        GenerateHotpCode_ok hmac c secret _ keyBytes hdec hkey
      by_cases heq : Totp.hotpCodeOf (hmac Totp.DefaultAlgorithm keyBytes
          (Totp.GetCounterState c)) 6 = code
      · exact tryCounters_cons_match hmac code secret _ 6 c [c + 1, c + 2]
          (by rw [hg0, heq])
      · rw [tryCounters_cons_step hmac code secret _ 6 c [c + 1, c + 2] _ hg0 heq]
        have hg1' : Totp.GenerateHotpCode hmac (c + 1) secret
            { ({ allowedSkew := some (0, 2) } : Totp.HotpOptions) with digits := some 6 } =
            .ok code :=
          (GenerateHotpCode_ok hmac (c + 1) secret _ keyBytes hdec hkey).trans
            (by rw [hceq]; rfl)
        exact tryCounters_cons_match hmac code secret _ 6 (c + 1) [c + 2] hg1'
    · intro hne
      rw [VerifyHotpCode_eval hmac code c secret _ (by omega) rfl, hlen6]
      rw [show ({ allowedSkew := some (0, 0) } : Totp.HotpOptions).allowedSkew =
        some (0, 0) from rfl]
      rw [counterValues_eval_00]
      have hg0 : Totp.GenerateHotpCode hmac c secret
          { ({ allowedSkew := some (0, 0) } : Totp.HotpOptions) with digits := some 6 } =
          .ok (Totp.hotpCodeOf (hmac Totp.DefaultAlgorithm keyBytes
            (Totp.GetCounterState c)) 6) :=
        GenerateHotpCode_ok hmac c secret _ keyBytes hdec hkey
      have hgne : Totp.hotpCodeOf (hmac Totp.DefaultAlgorithm keyBytes
          (Totp.GetCounterState c)) 6 ≠ code := by
        intro heq
        apply hne
        exact (show Totp.GenerateHotpCode hmac c secret {} =
            .ok (Totp.hotpCodeOf (hmac Totp.DefaultAlgorithm keyBytes
              (Totp.GetCounterState c)) 6) from
          GenerateHotpCode_ok hmac c secret {} keyBytes hdec hkey).trans (by rw [heq])
      rw [tryCounters_cons_step hmac code secret _ 6 c [] _ hg0 hgne]
      rfl

/-- C2 witness: a message-dependent digest provider, counter 0, the
16-character secret; the code generated at counter 1 verifies with skew
`{0, 2}` and is rejected with skew `{0, 0}`. -/
theorem C2_verify_skew_search_witness :
    Totp.VerifyHotpCode (fun _ _ msg => msg.reverse ++ List.replicate 12 0)
        ['7', '7', '7', '2', '1', '6'] 0 "JBSWY3DPEHPK3PXP".data
        { allowedSkew := some (0, 2) } = .ok true ∧
    Totp.VerifyHotpCode (fun _ _ msg => msg.reverse ++ List.replicate 12 0)
        ['7', '7', '7', '2', '1', '6'] 0 "JBSWY3DPEHPK3PXP".data
        { allowedSkew := some (0, 0) } = .ok false := by
  have h := (C2_verify_skew_search (fun _ _ msg => msg.reverse ++ List.replicate 12 0) 0
      "JBSWY3DPEHPK3PXP".data [72, 101, 108, 108, 111, 33, 222, 173, 190, 239] 1 2
      (by rfl) (by decide)).2.2.2 ['7', '7', '7', '2', '1', '6'] (by rfl)
  refine ⟨h.1, h.2 ?_⟩
  intro hcontra
  have heval : Totp.GenerateHotpCode (fun _ _ msg => msg.reverse ++ List.replicate 12 0) 0
      "JBSWY3DPEHPK3PXP".data {} = .ok ['0', '0', '0', '0', '0', '0'] := by rfl
  rw [heval] at hcontra
  exact absurd (Except.ok.inj hcontra) (by decide)

/-- C10: With padding, `EncodeToBase32` returns `8·⌈n/5⌉` characters
('='-padded to a multiple of 8); without padding it returns `⌈8n/5⌉`
characters, all from the Base32 alphabet and none of them '=';
`GenerateRandomSecret` is exactly the unpadded encoding of its random
bytes, hence `⌈8n/5⌉` alphabet characters. -/
theorem C10_encode_lengths (bytes : List Nat) (hb : ∀ x ∈ bytes, x < 256) :
    (Base32.EncodeToBase32 bytes true).length = 8 * ((bytes.length + 4) / 5) ∧
    (Base32.EncodeToBase32 bytes false).length = (8 * bytes.length + 4) / 5 ∧
    (∀ ch ∈ Base32.EncodeToBase32 bytes false, ch ∈ Base32.CharTable.data) ∧
    '=' ∉ Base32.EncodeToBase32 bytes false ∧
    Totp.GenerateRandomSecret bytes = Base32.EncodeToBase32 bytes false ∧
    (Totp.GenerateRandomSecret bytes).length = (8 * bytes.length + 4) / 5 := by
  have hglen : (Base32.encodeGroups 0 bytes).length = (8 * bytes.length + 4) / 5 := by
    have h := encodeGroups_length 0 bytes (by omega)
    simpa using h
  have hchars : ((Base32.encodeGroups 0 bytes).map Base32.charOf).length =
      (8 * bytes.length + 4) / 5 := by
    rw [List.length_map]
    exact hglen
  have hfalse_eq : Base32.EncodeToBase32 bytes false =
      (Base32.encodeGroups 0 bytes).map Base32.charOf := rfl
  have htrue_eq : Base32.EncodeToBase32 bytes true =
      (Base32.encodeGroups 0 bytes).map Base32.charOf ++
        List.replicate (8 * (bytes.length / 5 + (if bytes.length % 5 = 0 then 0 else 1))
          - ((Base32.encodeGroups 0 bytes).map Base32.charOf).length) '=' := rfl
  have halpha : ∀ ch ∈ (Base32.encodeGroups 0 bytes).map Base32.charOf,
      ch ∈ Base32.CharTable.data := by
    intro ch hch
    obtain ⟨g, hg, rfl⟩ := List.mem_map.mp hch
    have hg32 : g < 32 := encodeGroups_lt 0 bytes (by omega) hb g hg
    have hlen32 : g < Base32.CharTable.data.length := by
      have h32 : Base32.CharTable.data.length = 32 := by decide
      omega
    unfold Base32.charOf
    rw [List.getD_eq_getD_get? _ _ g, List.get?_eq_get hlen32]
    simp only [Option.getD_some]
    exact List.get_mem _ _ _
  refine ⟨?_, ?_, ?_, ?_, rfl, ?_⟩
  · rw [htrue_eq, List.length_append, List.length_replicate, hchars]
    by_cases h5 : bytes.length % 5 = 0
    · rw [if_pos h5]
      omega
    · rw [if_neg h5]
      omega
  · rw [hfalse_eq]
    exact hchars
  · rw [hfalse_eq]
    exact halpha
  · rw [hfalse_eq]
    intro hmem
    have hbad := halpha '=' hmem
    revert hbad
    decide
  · show (Totp.GenerateRandomSecret bytes).length = _
    rw [show Totp.GenerateRandomSecret bytes = Base32.EncodeToBase32 bytes false from rfl,
      hfalse_eq]
    exact hchars

/-- C10 witness: three bytes encode to 8 padded characters and 5 unpadded
alphabet characters. -/
theorem C10_encode_lengths_witness :
    (∀ x ∈ [1, 2, 3], x < 256) ∧
    (Base32.EncodeToBase32 [1, 2, 3] true).length = 8 * ((3 + 4) / 5) ∧
    (Base32.EncodeToBase32 [1, 2, 3] false).length = (8 * 3 + 4) / 5 ∧
    '=' ∉ Base32.EncodeToBase32 [1, 2, 3] false := by
  have h := C10_encode_lengths [1, 2, 3] (by decide)
  exact ⟨by decide, h.1, h.2.1, h.2.2.2.1⟩
